import Mathlib

/-!
Verification of the filesystem scanner core of the `dunefiles` repository
(`src/src-tauri/src/scanner.rs`).

The filesystem is modelled as a tree: a directory holds a list of child
entries; `Option` on a directory's contents records whether `fs::read_dir`
succeeds (`none` = read failure), and a `broken` child is one whose
`entry.metadata()` call fails.  File sizes are `Nat` (the `u64` byte
lengths; the source only ever adds sizes of real files, which cannot
overflow 64 bits on a real filesystem, so no wrap-around modelling is
needed).  Strings model the lossy UTF-8 names produced by
`to_string_lossy`, and a child's path is `parent ++ "/" ++ name`.
-/

namespace Dunefiles

/-- One child entry of a directory, as the scanner can observe it:
a regular file with its byte length, a subdirectory with the outcome of
reading it (`none` when `fs::read_dir` on it fails), or an entry whose
`entry.metadata()` call fails (`broken`). -/
inductive FsEntry where
  | file (name : String) (size : Nat)
  | dir (name : String) (contents : Option (List FsEntry))
  | broken (name : String)
deriving Repr

/-- What the filesystem holds at the path handed to `list_directory`:
nothing (`!dir_path.exists()`), a regular file (`!dir_path.is_dir()`),
or a directory together with the outcome of `fs::read_dir` on it. -/
inductive FsObject where
  | missing
  | file (size : Nat)
  | dir (contents : Option (List FsEntry))
deriving Repr

/-- Embeds the Rust struct `FileEntry` (name, path, is_dir, size). -/
structure FileEntry where
  name : String
  path : String
  is_dir : Bool
  size : Nat
deriving Repr, DecidableEq

/-- Embeds the Rust struct `DiskInfo` (name, path, total_space,
available_space). -/
structure DiskInfo where
  name : String
  path : String
  total_space : Nat
  available_space : Nat
deriving Repr, DecidableEq

/-- The name of an `FsEntry`, as `entry.file_name().to_string_lossy()`. -/
def FsEntry.name : FsEntry → String
  | .file n _ => n
  | .dir n _ => n
  | .broken n => n

/-- Whether a child is one whose `entry.metadata()` call fails. -/
def FsEntry.isBroken : FsEntry → Bool
  | .broken _ => true
  | _ => false

/-- Embeds Rust's `name.starts_with('.')` with a `char` pattern: the test
that the first character of the name is `'.'`. -/
def startsWithDot (s : String) : Bool :=
  match s.data with
  | [] => false
  | c :: _ => c = '.'

mutual

/-- Embeds `calculate_folder_size(path, depth)`: returns 0 when
`depth > 3`, returns 0 when `fs::read_dir(path)` fails, and otherwise
folds over the directory's entries via `sizeOfEntries`. -/
def calculate_folder_size (contents : Option (List FsEntry)) (depth : Nat) : Nat :=
  if depth > 3 then 0
  else
    match contents with
    | none => 0
    | some entries => sizeOfEntries entries depth

/-- The `for entry in entries.flatten()` loop of `calculate_folder_size`:
files add their byte length, entries with unreadable metadata add
nothing, hidden subdirectories are skipped, and every other subdirectory
recurses at `depth + 1`. -/
def sizeOfEntries (entries : List FsEntry) (depth : Nat) : Nat :=
  match entries with
  | [] => 0
  | e :: rest =>
    (match e with
     | FsEntry.file _ sz => sz
     | FsEntry.broken _ => 0
     | FsEntry.dir nm c =>
       if startsWithDot nm then 0 else calculate_folder_size c (depth + 1))
    + sizeOfEntries rest depth

end

/-- Embeds the comparator closure passed to `entries.sort_by` in
`list_directory`: directories order before files, and within a kind the
comparison is `b.size.cmp(&a.size)` (larger first). -/
def entryCmp (a b : FileEntry) : Ordering :=
  match a.is_dir, b.is_dir with
  | true, false => Ordering.lt
  | false, true => Ordering.gt
  | _, _ => compare b.size a.size

/-- Holds when `a` may come no later than `b` under the comparator: the
relation a stable sort (Rust's `sort_by`) establishes between successive
elements of its output. -/
def entryRel (a b : FileEntry) : Prop := entryCmp a b ≠ Ordering.gt

instance : DecidableRel entryRel := fun a b =>
  inferInstanceAs (Decidable (entryCmp a b ≠ Ordering.gt))

/-- The per-child collection loop of `list_directory`: children whose
metadata cannot be read are skipped, hidden names are skipped, files
carry their byte length and directories their depth-limited aggregate
size starting at depth 0. -/
def collectEntries (path : String) (entries : List FsEntry) : List FileEntry :=
  match entries with
  | [] => []
  | e :: rest =>
    match e with
    | FsEntry.broken _ => collectEntries path rest
    | FsEntry.file nm sz =>
      if startsWithDot nm then collectEntries path rest
      else
        (⟨nm, path ++ "/" ++ nm, false, sz⟩ : FileEntry)
          :: collectEntries path rest
    | FsEntry.dir nm c =>
      if startsWithDot nm then collectEntries path rest
      else
        (⟨nm, path ++ "/" ++ nm, true, calculate_folder_size c 0⟩ : FileEntry)
          :: collectEntries path rest

/-- Embeds `list_directory(path)`.  The path checks come first (missing
path, then non-directory); a failing top-level `read_dir` surfaces its
error string; otherwise the collected entries are sorted by the
comparator.  Rust `sort_by` is a stable sort, modelled by the stable
`List.insertionSort`. -/
def list_directory (path : String) (obj : FsObject) : Except String (List FileEntry) :=
  match obj with
  | FsObject.missing => Except.error ("Path does not exist: " ++ path)
  | FsObject.file _ => Except.error ("Path is not a directory: " ++ path)
  | FsObject.dir none => Except.error "read_dir error"
  | FsObject.dir (some entries) =>
    Except.ok (List.insertionSort entryRel (collectEntries path entries))

/-- The `/Volumes` loop of `get_disks` on macOS: entries whose
`fs::metadata` fails are skipped, non-directories are skipped, and every
directory contributes a `DiskInfo` with zero-filled capacities. -/
def volumesDisks : List FsEntry → List DiskInfo
  | [] => []
  | e :: rest =>
    match e with
    | FsEntry.broken _ => volumesDisks rest
    | FsEntry.file _ _ => volumesDisks rest
    | FsEntry.dir nm _ =>
      (⟨nm, "/Volumes/" ++ nm, 0, 0⟩ : DiskInfo) :: volumesDisks rest

/-- Embeds the macOS branch of `get_disks`: the `/Volumes` listing (or
nothing when `fs::read_dir("/Volumes")` fails), with a `Home` entry
inserted at the front when `dirs::home_dir()` yields a path. -/
def get_disks_macos (volumes : Option (List FsEntry)) (home : Option String) :
    List DiskInfo :=
  let disks := match volumes with
    | none => []
    | some entries => volumesDisks entries
  match home with
  | none => disks
  | some h => (⟨"Home", h, 0, 0⟩ : DiskInfo) :: disks

/-- The drive letters `b'A'..=b'Z'` probed by the Windows branch. -/
def driveLetters : List Char := "ABCDEFGHIJKLMNOPQRSTUVWXYZ".data

/-- The Windows drive-probing loop: each existing drive `X:\` contributes
a `DiskInfo` named `X: Drive` with zero-filled capacities. -/
def windowsDisks (pathExists : String → Bool) : List Char → List DiskInfo
  | [] => []
  | c :: rest =>
    if pathExists (String.singleton c ++ ":\\") then
      (⟨String.singleton c ++ ": Drive", String.singleton c ++ ":\\", 0, 0⟩ : DiskInfo)
        :: windowsDisks pathExists rest
    else windowsDisks pathExists rest

/-- Embeds the Windows branch of `get_disks`, parameterised by which
paths exist on the platform. -/
def get_disks_windows (pathExists : String → Bool) : List DiskInfo :=
  windowsDisks pathExists driveLetters

/-- The fixed mount points probed by the Linux branch of `get_disks`. -/
def mount_points : List String := ["/", "/home", "/mnt", "/media"]

/-- The Linux mount-point loop: each existing mount point contributes a
`DiskInfo` with zero-filled capacities. -/
def linuxDisks (pathExists : String → Bool) : List String → List DiskInfo
  | [] => []
  | mp :: rest =>
    if pathExists mp then
      (⟨mp, mp, 0, 0⟩ : DiskInfo) :: linuxDisks pathExists rest
    else linuxDisks pathExists rest

/-- Embeds the Linux branch of `get_disks`, parameterised by which paths
exist on the platform. -/
def get_disks_linux (pathExists : String → Bool) : List DiskInfo :=
  linuxDisks pathExists mount_points

/-- Spec-side description of the aggregated size: the byte lengths of
the regular files found by descending at most `bound` levels below a
directory with child list `entries`, where the descent does not enter
hidden subdirectories (leading `.`), cannot enter unreadable ones, and a
child with unreadable metadata yields nothing.  Level 1 holds the
directory's immediate children. -/
def filesWithin : Nat → List FsEntry → List Nat
  | 0, _ => []
  | _ + 1, [] => []
  | n + 1, e :: rest =>
    (match e with
     | FsEntry.file _ sz => [sz]
     | FsEntry.broken _ => []
     | FsEntry.dir nm c =>
       if startsWithDot nm then []
       else
         match c with
         | none => []
         | some ch => filesWithin n ch)
    ++ filesWithin (n + 1) rest

/-- Variant of `filesWithin` for a directory's read outcome. -/
def filesWithinO (bound : Nat) : Option (List FsEntry) → List Nat
  | none => []
  | some entries => filesWithin bound entries

mutual

/-- Removes every entry whose name begins with `.`, at every level. -/
def pruneHidden : List FsEntry → List FsEntry
  | [] => []
  | e :: rest =>
    match e with
    | FsEntry.file nm sz =>
      if startsWithDot nm then pruneHidden rest
      else FsEntry.file nm sz :: pruneHidden rest
    | FsEntry.broken nm =>
      if startsWithDot nm then pruneHidden rest
      else FsEntry.broken nm :: pruneHidden rest
    | FsEntry.dir nm c =>
      if startsWithDot nm then pruneHidden rest
      else FsEntry.dir nm (pruneHiddenO c) :: pruneHidden rest

/-- Variant of `pruneHidden` for a directory's read outcome. -/
def pruneHiddenO : Option (List FsEntry) → Option (List FsEntry)
  | none => none
  | some entries => some (pruneHidden entries)

end

mutual

/-- Removes every directory entry whose name begins with `.`, at every
level; files and broken entries are kept whatever their name. -/
def pruneHiddenDirs : List FsEntry → List FsEntry
  | [] => []
  | e :: rest =>
    match e with
    | FsEntry.file nm sz => FsEntry.file nm sz :: pruneHiddenDirs rest
    | FsEntry.broken nm => FsEntry.broken nm :: pruneHiddenDirs rest
    | FsEntry.dir nm c =>
      if startsWithDot nm then pruneHiddenDirs rest
      else FsEntry.dir nm (pruneHiddenDirsO c) :: pruneHiddenDirs rest

/-- Variant of `pruneHiddenDirs` for a directory's read outcome. -/
def pruneHiddenDirsO : Option (List FsEntry) → Option (List FsEntry)
  | none => none
  | some entries => some (pruneHiddenDirs entries)

end

mutual

/-- Evaluation of `calculate_folder_size` under an explicit bound on the
number of nested recursive activations: `none` means the bound was hit.
Used to state that the source recursion needs only a constant-depth
stack. -/
def calcSizeFuel : Nat → Option (List FsEntry) → Nat → Option Nat
  | 0, _, _ => none
  | fuel + 1, contents, depth =>
    if depth > 3 then some 0
    else
      match contents with
      | none => some 0
      | some entries => sizeFuel fuel entries depth

/-- The loop of `calcSizeFuel`, threading the remaining activation
bound through the recursive calls on subdirectories. -/
def sizeFuel : Nat → List FsEntry → Nat → Option Nat
  | _, [], _ => some 0
  | fuel, e :: rest, depth => do
    let hd ← match e with
      | FsEntry.file _ sz => some sz
      | FsEntry.broken _ => some 0
      | FsEntry.dir nm c =>
        if startsWithDot nm then some 0 else calcSizeFuel fuel c (depth + 1)
    let tl ← sizeFuel fuel rest depth
    some (hd + tl)

end

instance : IsTotal FileEntry entryRel := by
  constructor
  rintro ⟨an, ap, ad, az⟩ ⟨bn, bp, bd, bz⟩
  unfold entryRel entryCmp
  cases ad <;> cases bd <;> simp [Nat.compare_eq_gt] <;> omega

instance : IsTrans FileEntry entryRel := by
  constructor
  rintro ⟨an, ap, ad, az⟩ ⟨bn, bp, bd, bz⟩ ⟨cn, cp, cd, cz⟩ hab hbc
  unfold entryRel entryCmp at hab hbc ⊢
  cases ad <;> cases bd <;> cases cd <;> simp_all [Nat.compare_eq_gt]
  all_goals omega

theorem list_directory_sorted (path : String) (obj : FsObject) (out : List FileEntry)
    (h : list_directory path obj = Except.ok out) : List.Pairwise entryRel out := by
  cases obj with
  | missing => simp [list_directory] at h
  | file sz => simp [list_directory] at h
  | dir contents =>
    cases contents with
    | none => simp [list_directory] at h
    | some es =>
      simp only [list_directory, Except.ok.injEq] at h
      subst h
      exact List.sorted_insertionSort entryRel (collectEntries path es)

theorem mem_collectEntries_not_hidden (path : String) (es : List FsEntry)
    (fe : FileEntry) (h : fe ∈ collectEntries path es) :
    startsWithDot fe.name = false := by
  induction es with
  | nil => simp [collectEntries] at h
  | cons e rest ih =>
    cases e with
    | broken nm =>
      rw [collectEntries] at h
      exact ih h
    | file nm sz =>
      rw [collectEntries] at h
      by_cases hd : startsWithDot nm = true
      · simp only [hd, if_pos] at h
        exact ih h
      · simp only [Bool.not_eq_true] at hd
        simp only [hd, Bool.false_eq_true, if_false, List.mem_cons] at h
        rcases h with h | h
        · subst h
          exact hd
        · exact ih h
    | dir nm c =>
      rw [collectEntries] at h
      by_cases hd : startsWithDot nm = true
      · simp only [hd, if_pos] at h
        exact ih h
      · simp only [Bool.not_eq_true] at hd
        simp only [hd, Bool.false_eq_true, if_false, List.mem_cons] at h
        rcases h with h | h
        · subst h
          exact hd
        · exact ih h

theorem mem_collectEntries_dir (path : String) (es : List FsEntry)
    (fe : FileEntry) (h : fe ∈ collectEntries path es) (hdir : fe.is_dir = true) :
    ∃ c, FsEntry.dir fe.name c ∈ es ∧ fe.size = calculate_folder_size c 0 := by
  induction es with
  | nil => simp [collectEntries] at h
  | cons e rest ih =>
    cases e with
    | broken nm =>
      rw [collectEntries] at h
      obtain ⟨c, hc, hsz⟩ := ih h
      exact ⟨c, List.mem_cons_of_mem _ hc, hsz⟩
    | file nm sz =>
      rw [collectEntries] at h
      by_cases hd : startsWithDot nm = true
      · simp only [hd, if_pos] at h
        obtain ⟨c, hc, hsz⟩ := ih h
        exact ⟨c, List.mem_cons_of_mem _ hc, hsz⟩
      · simp only [Bool.not_eq_true] at hd
        simp only [hd, Bool.false_eq_true, if_false, List.mem_cons] at h
        rcases h with h | h
        · subst h
          simp at hdir
        · obtain ⟨c, hc, hsz⟩ := ih h
          exact ⟨c, List.mem_cons_of_mem _ hc, hsz⟩
    | dir nm c =>
      rw [collectEntries] at h
      by_cases hd : startsWithDot nm = true
      · simp only [hd, if_pos] at h
        obtain ⟨c2, hc, hsz⟩ := ih h
        exact ⟨c2, List.mem_cons_of_mem _ hc, hsz⟩
      · simp only [Bool.not_eq_true] at hd
        simp only [hd, Bool.false_eq_true, if_false, List.mem_cons] at h
        rcases h with h | h
        · subst h
          exact ⟨c, List.mem_cons_self _ _, rfl⟩
        · obtain ⟨c2, hc, hsz⟩ := ih h
          exact ⟨c2, List.mem_cons_of_mem _ hc, hsz⟩


theorem calc_pruneHiddenDirs :
    (∀ c d, calculate_folder_size (pruneHiddenDirsO c) d = calculate_folder_size c d) ∧
    (∀ es d, sizeOfEntries (pruneHiddenDirs es) d = sizeOfEntries es d) := by
  refine calculate_folder_size.mutual_induct
    (fun c d => calculate_folder_size (pruneHiddenDirsO c) d = calculate_folder_size c d)
    (fun es d => sizeOfEntries (pruneHiddenDirs es) d = sizeOfEntries es d)
    ?_ ?_ ?_ ?_ ?_
  · intro c d hd
    rw [calculate_folder_size.eq_def, calculate_folder_size.eq_def]
    simp [hd]
  · intro d hd
    simp [pruneHiddenDirsO]
  · intro d hd es ih
    simp [pruneHiddenDirsO, calculate_folder_size, hd, ih]
  · intro d
    simp [pruneHiddenDirs]
  · intro d e rest ihe ih
    cases e with
    | file nm sz => simp [pruneHiddenDirs, sizeOfEntries, ih]
    | broken nm => simp [pruneHiddenDirs, sizeOfEntries, ih]
    | dir nm c =>
      have ihe2 : calculate_folder_size (pruneHiddenDirsO c) (d + 1) =
          calculate_folder_size c (d + 1) := ihe
      by_cases hdn : startsWithDot nm = true
      · simp [pruneHiddenDirs, sizeOfEntries, hdn, ih]
      · simp only [Bool.not_eq_true] at hdn
        simp [pruneHiddenDirs, sizeOfEntries, hdn, ih, ihe2]

theorem calc_filesWithin :
    (∀ c d, calculate_folder_size c d = (filesWithinO (4 - d) c).sum) ∧
    (∀ es d, d ≤ 3 → sizeOfEntries es d = (filesWithin (4 - d) es).sum) := by
  refine calculate_folder_size.mutual_induct
    (fun c d => calculate_folder_size c d = (filesWithinO (4 - d) c).sum)
    (fun es d => d ≤ 3 → sizeOfEntries es d = (filesWithin (4 - d) es).sum)
    ?_ ?_ ?_ ?_ ?_
  · intro c d hd
    have h0 : 4 - d = 0 := by omega
    rw [h0, calculate_folder_size.eq_def]
    cases c <;> simp [filesWithinO, filesWithin, hd]
  · intro d hd
    simp [calculate_folder_size, hd, filesWithinO]
  · intro d hd es ih
    simp only [calculate_folder_size, hd, if_false, filesWithinO]
    exact ih (by omega)
  · intro d hle
    obtain ⟨k, hk⟩ : ∃ k, 4 - d = k + 1 := ⟨3 - d, by omega⟩
    rw [hk]
    simp [filesWithin, sizeOfEntries]
  · intro d e rest ihe ih hle
    obtain ⟨k, hk⟩ : ∃ k, 4 - d = k + 1 := ⟨3 - d, by omega⟩
    have ih2 := ih hle
    rw [hk] at ih2 ⊢
    cases e with
    | file nm sz => simp [sizeOfEntries, filesWithin, ih2]
    | broken nm => simp [sizeOfEntries, filesWithin, ih2]
    | dir nm c =>
      have ihe2 : calculate_folder_size c (d + 1) =
          (filesWithinO (4 - (d + 1)) c).sum := ihe
      by_cases hdn : startsWithDot nm = true
      · cases c <;> simp [sizeOfEntries, filesWithin, hdn, ih2]
      · simp only [Bool.not_eq_true] at hdn
        have hk2 : 4 - (d + 1) = k := by omega
        rw [hk2] at ihe2
        cases c with
        | none => simp [sizeOfEntries, filesWithin, hdn, ih2, calculate_folder_size]
        | some ch =>
          simp only [filesWithinO] at ihe2
          simp [sizeOfEntries, filesWithin, hdn, ih2, ihe2]


theorem calcSizeFuel_spec :
    (∀ fuel c d, 4 - d < fuel → calcSizeFuel fuel c d = some (calculate_folder_size c d)) ∧
    (∀ fuel es d, d ≤ 3 → 3 - d < fuel → sizeFuel fuel es d = some (sizeOfEntries es d)) := by
  refine calcSizeFuel.mutual_induct
    (fun fuel c d => 4 - d < fuel → calcSizeFuel fuel c d = some (calculate_folder_size c d))
    (fun fuel es d => d ≤ 3 → 3 - d < fuel → sizeFuel fuel es d = some (sizeOfEntries es d))
    ?_ ?_ ?_ ?_ ?_ ?_ ?_ ?_ ?_
  · intro c d h
    exact absurd h (by omega)
  · intro fuel c d hd _
    rw [calcSizeFuel.eq_def, calculate_folder_size.eq_def]
    simp [hd]
  · intro fuel d hd _
    simp [calcSizeFuel, calculate_folder_size, hd]
  · intro fuel d hd es ih hlt
    simp only [calcSizeFuel, calculate_folder_size, hd, if_false]
    exact ih (by omega) (by omega)
  · intro fuel d _ _
    simp [sizeFuel, sizeOfEntries]
  · intro fuel rest d nm sz ih hle hlt
    simp [sizeFuel, sizeOfEntries, ih hle hlt]
  · intro fuel rest d nm ih hle hlt
    simp [sizeFuel, sizeOfEntries, ih hle hlt]
  · intro fuel rest d nm c hdn ih hle hlt
    simp [sizeFuel, sizeOfEntries, hdn, ih hle hlt]
  · intro fuel rest d nm c hdn ih ihc hle hlt
    simp only [Bool.not_eq_true] at hdn
    simp [sizeFuel, sizeOfEntries, hdn, ih hle hlt, ihc (by omega)]

theorem mem_volumesDisks_zero (es : List FsEntry) (d : DiskInfo)
    (h : d ∈ volumesDisks es) : d.total_space = 0 ∧ d.available_space = 0 := by
  induction es with
  | nil => simp [volumesDisks] at h
  | cons e rest ih =>
    cases e with
    | file nm sz => rw [volumesDisks] at h; exact ih h
    | broken nm => rw [volumesDisks] at h; exact ih h
    | dir nm c =>
      rw [volumesDisks] at h
      rcases List.mem_cons.mp h with h | h
      · subst h; exact ⟨rfl, rfl⟩
      · exact ih h

theorem mem_windowsDisks_zero (pathExists : String → Bool) (l : List Char)
    (d : DiskInfo) (h : d ∈ windowsDisks pathExists l) :
    d.total_space = 0 ∧ d.available_space = 0 := by
  induction l with
  | nil => simp [windowsDisks] at h
  | cons c rest ih =>
    rw [windowsDisks] at h
    by_cases hp : pathExists (String.singleton c ++ ":\\") = true
    · simp only [hp, if_pos] at h
      rcases List.mem_cons.mp h with h | h
      · subst h; exact ⟨rfl, rfl⟩
      · exact ih h
    · simp only [Bool.not_eq_true] at hp
      simp only [hp, Bool.false_eq_true, if_false] at h
      exact ih h

theorem mem_linuxDisks_zero (pathExists : String → Bool) (l : List String)
    (d : DiskInfo) (h : d ∈ linuxDisks pathExists l) :
    d.total_space = 0 ∧ d.available_space = 0 := by
  induction l with
  | nil => simp [linuxDisks] at h
  | cons mp rest ih =>
    rw [linuxDisks] at h
    by_cases hp : pathExists mp = true
    · simp only [hp, if_pos] at h
      rcases List.mem_cons.mp h with h | h
      · subst h; exact ⟨rfl, rfl⟩
      · exact ih h
    · simp only [Bool.not_eq_true] at hp
      simp only [hp, Bool.false_eq_true, if_false] at h
      exact ih h

theorem collectEntries_filter_broken (path : String) (es : List FsEntry) :
    collectEntries path (es.filter (fun e => ! e.isBroken)) = collectEntries path es := by
  induction es with
  | nil => rfl
  | cons e rest ih =>
    cases e with
    | file nm sz =>
      simp only [List.filter_cons, show (!(FsEntry.file nm sz).isBroken) = true from rfl,
        if_true, collectEntries]
      rw [ih]
    | broken nm =>
      simp only [List.filter_cons, show (!(FsEntry.broken nm).isBroken) = false from rfl,
        Bool.false_eq_true, if_false, collectEntries]
      exact ih
    | dir nm c =>
      simp only [List.filter_cons, show (!(FsEntry.dir nm c).isBroken) = true from rfl,
        if_true, collectEntries]
      rw [ih]


/-- C3: for the fixture root containing `docs` (with `a.txt` of 10 bytes and
hidden `docs/.hidden` holding `b.txt` of 1000 bytes) and top-level `c.txt`
(5 bytes), `list_directory` returns exactly the directory entry `docs` with
size 10 followed by the file entry `c.txt` with size 5 — whichever order
`read_dir` enumerates the children in. -/
theorem C3_fixture_listing :
    list_directory "/root" (FsObject.dir (some
      [FsEntry.dir "docs" (some [FsEntry.file "a.txt" 10,
         FsEntry.dir ".hidden" (some [FsEntry.file "b.txt" 1000])]),
       FsEntry.file "c.txt" 5])) =
      Except.ok [⟨"docs", "/root/docs", true, 10⟩, ⟨"c.txt", "/root/c.txt", false, 5⟩] ∧
    list_directory "/root" (FsObject.dir (some
      [FsEntry.file "c.txt" 5,
       FsEntry.dir "docs" (some [FsEntry.dir ".hidden" (some [FsEntry.file "b.txt" 1000]),
         FsEntry.file "a.txt" 10])])) =
      Except.ok [⟨"docs", "/root/docs", true, 10⟩, ⟨"c.txt", "/root/c.txt", false, 5⟩] := by
  constructor <;>
    simp [list_directory, collectEntries, calculate_folder_size, sizeOfEntries,
      startsWithDot, List.insertionSort, List.orderedInsert, entryRel, entryCmp]

/-- C5: `calculate_folder_size` returns 0 for every depth strictly greater
than 3, whatever the directory contents. -/
theorem C5_depth_gt_three (c : Option (List FsEntry)) (d : Nat) (h : d > 3) :
    calculate_folder_size c d = 0 := by
  rw [calculate_folder_size.eq_def]
  simp [h]

theorem C5_depth_gt_three_witness :
    4 > 3 ∧ calculate_folder_size (some [FsEntry.file "a" 5]) 4 = 0 :=
  ⟨by decide, C5_depth_gt_three (some [FsEntry.file "a" 5]) 4 (by decide)⟩

/-- C6: `list_directory` on a missing path fails with the path-not-found
error and on a regular file with the not-a-directory error; in both cases
the result is an error, so no entries are returned. -/
theorem C6_top_level_errors (path : String) (sz : Nat) :
    list_directory path FsObject.missing =
      Except.error ("Path does not exist: " ++ path) ∧
    list_directory path (FsObject.file sz) =
      Except.error ("Path is not a directory: " ++ path) :=
  ⟨rfl, rfl⟩

/-- C7: on a readable top-level directory `list_directory` always succeeds;
children whose metadata cannot be read are omitted without affecting the
rest of the result, and an unreadable subdirectory contributes 0 to the
aggregation — errors come only from the top-level path checks. -/
theorem C7_best_effort_success :
    (∀ path es, list_directory path (FsObject.dir (some es)) =
      Except.ok (List.insertionSort entryRel (collectEntries path es))) ∧
    (∀ path es, list_directory path (FsObject.dir (some es)) =
      list_directory path (FsObject.dir (some (es.filter (fun e => ! e.isBroken))))) ∧
    (∀ d, calculate_folder_size none d = 0) := by
  refine ⟨fun path es => rfl, fun path es => ?_, fun d => ?_⟩
  · simp [list_directory, collectEntries_filter_broken]
  · rw [calculate_folder_size.eq_def]
    simp

/-- C8: volume enumeration has no error channel: each platform branch of
`get_disks` is a total function into a list, and a platform state with no
discoverable volumes (including a failed `/Volumes` read on macOS) yields
the empty list rather than an error. -/
theorem C8_volumes_never_fail :
    get_disks_macos none none = [] ∧ get_disks_macos (some []) none = [] ∧
    get_disks_windows (fun _ => false) = [] ∧ get_disks_linux (fun _ => false) = [] :=
  ⟨rfl, rfl, rfl, rfl⟩

/-- C9: the recursion of `calculate_folder_size` is bounded by the depth
ceiling: evaluation with only 5 nested activations allowed never hits the
bound and computes the same total, for every input tree and start depth. -/
theorem C9_bounded_recursion (c : Option (List FsEntry)) (d : Nat) :
    calcSizeFuel 5 c d = some (calculate_folder_size c d) :=
  calcSizeFuel_spec.1 5 c d (by omega)


/-- C4: in every successful `list_directory` result, every directory entry
occurs before every file entry, and within each of the two groups the
sizes are non-increasing along the sequence. -/
theorem C4_partition_sorted (path : String) (obj : FsObject) (out : List FileEntry)
    (h : list_directory path obj = Except.ok out)
    (i j : Nat) (hi : i < out.length) (hj : j < out.length) (hij : i < j) :
    ((out.get ⟨j, hj⟩).is_dir = true → (out.get ⟨i, hi⟩).is_dir = true) ∧
    ((out.get ⟨i, hi⟩).is_dir = (out.get ⟨j, hj⟩).is_dir →
      (out.get ⟨j, hj⟩).size ≤ (out.get ⟨i, hi⟩).size) := by
  have hp : List.Pairwise entryRel out := list_directory_sorted path obj out h
  have hr : entryRel (out.get ⟨i, hi⟩) (out.get ⟨j, hj⟩) :=
    List.pairwise_iff_get.mp hp ⟨i, hi⟩ ⟨j, hj⟩ (Fin.mk_lt_mk.mpr hij)
  revert hr
  generalize out.get ⟨i, hi⟩ = a
  generalize out.get ⟨j, hj⟩ = b
  intro hr
  obtain ⟨an, apath, ad, az⟩ := a
  obtain ⟨bn, bpath, bd, bz⟩ := b
  unfold entryRel entryCmp at hr
  cases ad <;> cases bd <;> simp_all [Nat.compare_eq_gt]

theorem C4_partition_sorted_witness :
    ((([(⟨"a", "/w/a", true, 0⟩ : FileEntry), ⟨"b", "/w/b", false, 3⟩]).get
        ⟨1, by decide⟩).is_dir = true →
      (([(⟨"a", "/w/a", true, 0⟩ : FileEntry), ⟨"b", "/w/b", false, 3⟩]).get
        ⟨0, by decide⟩).is_dir = true) ∧
    ((([(⟨"a", "/w/a", true, 0⟩ : FileEntry), ⟨"b", "/w/b", false, 3⟩]).get
        ⟨0, by decide⟩).is_dir =
      (([(⟨"a", "/w/a", true, 0⟩ : FileEntry), ⟨"b", "/w/b", false, 3⟩]).get
        ⟨1, by decide⟩).is_dir →
      (([(⟨"a", "/w/a", true, 0⟩ : FileEntry), ⟨"b", "/w/b", false, 3⟩]).get
        ⟨1, by decide⟩).size ≤
      (([(⟨"a", "/w/a", true, 0⟩ : FileEntry), ⟨"b", "/w/b", false, 3⟩]).get
        ⟨0, by decide⟩).size) :=
  C4_partition_sorted "/w" (FsObject.dir (some [FsEntry.file "b" 3, FsEntry.dir "a" none]))
    [⟨"a", "/w/a", true, 0⟩, ⟨"b", "/w/b", false, 3⟩]
    (by simp [list_directory, collectEntries, calculate_folder_size, startsWithDot,
      List.insertionSort, List.orderedInsert, entryRel, entryCmp])
    0 1 (by decide) (by decide) (by decide)

/-- C10: every `DiskInfo` produced by any platform branch of `get_disks`
has `total_space = 0` and `available_space = 0`: no strategy ever fills in
true capacities. -/
theorem C10_zero_capacities :
    (∀ vols home d, d ∈ get_disks_macos vols home →
      d.total_space = 0 ∧ d.available_space = 0) ∧
    (∀ pe d, d ∈ get_disks_windows pe →
      d.total_space = 0 ∧ d.available_space = 0) ∧
    (∀ pe d, d ∈ get_disks_linux pe →
      d.total_space = 0 ∧ d.available_space = 0) := by
  refine ⟨?_, ?_, ?_⟩
  · intro vols home d h
    cases home with
    | none =>
      cases vols with
      | none => simp [get_disks_macos] at h
      | some es => exact mem_volumesDisks_zero es d (by simpa [get_disks_macos] using h)
    | some hp =>
      cases vols with
      | none =>
        simp [get_disks_macos] at h
        subst h
        exact ⟨rfl, rfl⟩
      | some es =>
        simp only [get_disks_macos, List.mem_cons] at h
        rcases h with h | h
        · subst h
          exact ⟨rfl, rfl⟩
        · exact mem_volumesDisks_zero es d h
  · intro pe d h
    exact mem_windowsDisks_zero pe driveLetters d h
  · intro pe d h
    exact mem_linuxDisks_zero pe mount_points d h

theorem C10_zero_capacities_witness :
    (⟨"/", "/", 0, 0⟩ : DiskInfo).total_space = 0 ∧
    (⟨"/", "/", 0, 0⟩ : DiskInfo).available_space = 0 :=
  C10_zero_capacities.2.2 (fun _ => true) ⟨"/", "/", 0, 0⟩ (by decide)


/-- Formalisation of the sentence that hidden entries never appear in a
listing and never contribute to any ancestor's aggregated size: were it
true, deleting every hidden entry from the tree could not change the
result of a successful listing. -/
def hiddenEntriesContributeNothing : Prop :=
  ∀ path es out,
    list_directory path (FsObject.dir (some es)) = Except.ok out →
    list_directory path (FsObject.dir (some (pruneHidden es))) = Except.ok out

/-- C1 fails as stated: a hidden regular file below a listed directory
does contribute to the aggregated size.  A root whose child `d` holds only
the hidden file `.h` of 7 bytes is listed with size 7, not 0. -/
theorem C1_counterexample : ¬ hiddenEntriesContributeNothing := by
  intro h
  have h1 : list_directory "/r"
      (FsObject.dir (some [FsEntry.dir "d" (some [FsEntry.file ".h" 7])])) =
      Except.ok [⟨"d", "/r/d", true, 7⟩] := by
    simp [list_directory, collectEntries, calculate_folder_size, sizeOfEntries,
      startsWithDot, List.insertionSort, List.orderedInsert]
  have h2 := h "/r" _ _ h1
  rw [show pruneHidden [FsEntry.dir "d" (some [FsEntry.file ".h" 7])] =
      [FsEntry.dir "d" (some [])] from by
    simp [pruneHidden, pruneHiddenO, startsWithDot]] at h2
  rw [show list_directory "/r" (FsObject.dir (some [FsEntry.dir "d" (some [])])) =
      Except.ok [⟨"d", "/r/d", true, 0⟩] from by
    simp [list_directory, collectEntries, calculate_folder_size, sizeOfEntries,
      startsWithDot, List.insertionSort, List.orderedInsert]] at h2
  simp at h2

/-- C1 (amended): an entry whose name begins with `.` never appears in a
listing, and a directory whose name begins with `.` contributes 0 bytes to
every ancestor's aggregated size (pruning hidden directories leaves every
aggregate unchanged); hidden regular files below a listed directory,
however, do count towards the aggregate. -/
theorem C1_hidden_amended :
    (∀ path obj out fe, list_directory path obj = Except.ok out → fe ∈ out →
      startsWithDot fe.name = false) ∧
    (∀ c d, calculate_folder_size (pruneHiddenDirsO c) d = calculate_folder_size c d) := by
  constructor
  · intro path obj out fe h hm
    cases obj with
    | missing => simp [list_directory] at h
    | file sz => simp [list_directory] at h
    | dir contents =>
      cases contents with
      | none => simp [list_directory] at h
      | some es =>
        simp only [list_directory, Except.ok.injEq] at h
        subst h
        exact mem_collectEntries_not_hidden path es fe ((List.mem_insertionSort entryRel).mp hm)
  · exact calc_pruneHiddenDirs.1

theorem C1_hidden_amended_witness :
    startsWithDot (⟨"d", "/r/d", true, 7⟩ : FileEntry).name = false ∧
    calculate_folder_size
        (pruneHiddenDirsO (some [FsEntry.dir ".s" (some [FsEntry.file "x" 5])])) 0 =
      calculate_folder_size (some [FsEntry.dir ".s" (some [FsEntry.file "x" 5])]) 0 :=
  ⟨C1_hidden_amended.1 "/r"
      (FsObject.dir (some [FsEntry.dir "d" (some [FsEntry.file ".h" 7])]))
      [⟨"d", "/r/d", true, 7⟩] ⟨"d", "/r/d", true, 7⟩
      (by simp [list_directory, collectEntries, calculate_folder_size, sizeOfEntries,
        startsWithDot, List.insertionSort, List.orderedInsert])
      (by decide),
    C1_hidden_amended.2 (some [FsEntry.dir ".s" (some [FsEntry.file "x" 5])]) 0⟩

/-- Formalisation of the depth claim as stated: the size reported for a
directory entry equals the total byte length of the regular files at most
`bound` levels below it. -/
def listedDirSizesWithin (bound : Nat) : Prop :=
  ∀ path es out fe c,
    list_directory path (FsObject.dir (some es)) = Except.ok out →
    fe ∈ out → fe.is_dir = true → FsEntry.dir fe.name (some c) ∈ es →
    fe.size = (filesWithin bound c).sum

/-- C2 fails as stated with the bound 3: a file four levels below a listed
directory still counts.  With `d/a/b/c/f` and `f` of 9 bytes, `d` is
listed with size 9, while no regular file lies within 3 levels of `d`. -/
theorem C2_counterexample : ¬ listedDirSizesWithin 3 := by
  intro h
  have h1 : list_directory "/r" (FsObject.dir (some
      [FsEntry.dir "d" (some [FsEntry.dir "a" (some [FsEntry.dir "b" (some
        [FsEntry.dir "c" (some [FsEntry.file "f" 9])])])])])) =
      Except.ok [⟨"d", "/r/d", true, 9⟩] := by
    simp [list_directory, collectEntries, calculate_folder_size, sizeOfEntries,
      startsWithDot, List.insertionSort, List.orderedInsert]
  have h2 := h "/r" _ _ ⟨"d", "/r/d", true, 9⟩
    [FsEntry.dir "a" (some [FsEntry.dir "b" (some
      [FsEntry.dir "c" (some [FsEntry.file "f" 9])])])]
    h1 (by decide) rfl (List.mem_singleton_self _)
  rw [show (filesWithin 3 [FsEntry.dir "a" (some [FsEntry.dir "b" (some
      [FsEntry.dir "c" (some [FsEntry.file "f" 9])])])]).sum = 0 from by
    simp [filesWithin, startsWithDot]] at h2
  exact absurd h2 (by decide)

/-- C2 (amended): every directory entry returned by `list_directory`
carries the depth-limited aggregate of a matching source subtree, and that
aggregate equals the sum of the byte lengths of the regular files found by
descending at most FOUR levels below the directory (the descent skipping
hidden and unreadable subdirectories); content deeper than four levels
contributes exactly 0.  In particular a directory whose entire content
lies within four levels is reported with its exact total. -/
theorem C2_depth_amended (path : String) (es : List FsEntry) (out : List FileEntry)
    (fe : FileEntry) (h : list_directory path (FsObject.dir (some es)) = Except.ok out)
    (hm : fe ∈ out) (hdir : fe.is_dir = true) :
    ∃ c, FsEntry.dir fe.name c ∈ es ∧ fe.size = calculate_folder_size c 0 ∧
      fe.size = (filesWithinO 4 c).sum := by
  simp only [list_directory, Except.ok.injEq] at h
  subst h
  obtain ⟨c, hc, hsz⟩ :=
    mem_collectEntries_dir path es fe ((List.mem_insertionSort entryRel).mp hm) hdir
  refine ⟨c, hc, hsz, ?_⟩
  rw [hsz]
  simpa using calc_filesWithin.1 c 0

theorem C2_depth_amended_witness :
    ∃ c, FsEntry.dir (⟨"d", "/r/d", true, 9⟩ : FileEntry).name c ∈
        [FsEntry.dir "d" (some [FsEntry.dir "a" (some [FsEntry.dir "b" (some
          [FsEntry.dir "c" (some [FsEntry.file "f" 9])])])])] ∧
      (⟨"d", "/r/d", true, 9⟩ : FileEntry).size = calculate_folder_size c 0 ∧
      (⟨"d", "/r/d", true, 9⟩ : FileEntry).size = (filesWithinO 4 c).sum :=
  C2_depth_amended "/r"
    [FsEntry.dir "d" (some [FsEntry.dir "a" (some [FsEntry.dir "b" (some
      [FsEntry.dir "c" (some [FsEntry.file "f" 9])])])])]
    [⟨"d", "/r/d", true, 9⟩] ⟨"d", "/r/d", true, 9⟩
    (by simp [list_directory, collectEntries, calculate_folder_size, sizeOfEntries,
      startsWithDot, List.insertionSort, List.orderedInsert])
    (by decide) rfl

end Dunefiles
